import Mathlib

/-!
Shallow embedding of the overlap-detection core of the essay-writing
application (the `AnalyticsPanel` component): tokenizer, block matcher
(difflib-style recursive longest-common-block extraction), span mapper,
range merger and highlight renderer, together with proofs of the
specification's claims about them.

Modelling choices:
* texts are `List Char`; character offsets index that list;
* JavaScript arrays become `List`, and indexing that can yield
  `undefined` becomes an `Option`-returning lookup (`undefined === undefined`
  is `true` in JavaScript, which matches equality of `none` with `none`);
* the source's `end` field is named `stop` throughout, because `end` is a
  reserved word in Lean;
* `Array.prototype.sort` with a comparator on `start` is a stable sort; it
  is embedded as `List.insertionSort`, which is stable with the same order;
* the `while (pending.length)` loop of `findMatchingBlocks` can fail to
  terminate (it does for `minMatchWords = 0`), so it is embedded as a
  fuel-indexed loop; a later theorem shows the concrete fuel
  `2 * a.length + 2` suffices whenever `minMatchWords ≥ 1`;
* code that would throw a `TypeError` (reading a field of `undefined`)
  returns `none`.
-/

namespace AiWriting

/-- Token produced by `tokenizeWithSpans`: normalized (lower-cased) text plus
half-open character offsets into the original string. -/
structure TokenSpan where
  token : String
  start : Nat
  stop : Nat
deriving DecidableEq

/-- Matching block in token-index space: `size` consecutive tokens starting at
`aStart` in sequence A and `bStart` in sequence B. -/
structure MatchBlock where
  aStart : Nat
  bStart : Nat
  size : Nat
deriving DecidableEq

/-- Half-open character span into one source string (source type `TextSpan`). -/
structure TextSpan where
  start : Nat
  stop : Nat
deriving DecidableEq

/-- Character class of the tokenizing regex `/[a-z0-9']+/gi`: ASCII letters
(either case, because of the `i` flag), digits, apostrophe. -/
def isWordChar (c : Char) : Bool :=
  ('a' ≤ c && c ≤ 'z') || ('A' ≤ c && c ≤ 'Z') || ('0' ≤ c && c ≤ '9') || c = '\''

/-- Embedding of `tokenizeWithSpans`: scan for maximal runs of word
characters; each run yields a token with its lower-cased text and its
original offsets.  `pos` is the offset of the head of the remaining text. -/
def tokenize : List Char → Nat → List TokenSpan
  | [], _ => []
  | c :: cs, pos =>
    if h : isWordChar c then
      let run := (c :: cs).takeWhile isWordChar
      ⟨String.mk (run.map Char.toLower), pos, pos + run.length⟩ ::
        tokenize ((c :: cs).dropWhile isWordChar) (pos + run.length)
    else tokenize cs (pos + 1)
termination_by l _ => l.length
decreasing_by
  · rw [List.dropWhile_cons, if_pos h]
    exact Nat.lt_succ_of_le (List.dropWhile_sublist isWordChar).length_le
  · simp

/-- Mutable best-match bookkeeping of `findLongestCommonBlock`:
`bestSize`, `bestAEnd`, `bestBEnd`. -/
structure BestState where
  bestSize : Nat
  bestAEnd : Nat
  bestBEnd : Nat
deriving DecidableEq

/-- Body of the inner `for (let j = bLo; j < bHi; j++)` loop of
`findLongestCommonBlock`.  The state is the pair (`curr`, best-so-far);
`prev` is the previous DP row (`prev[k]` read as `prev.getD k 0`). -/
def lcbInnerStep (a b : List String) (i bLo : Nat) (prev : List Nat) :
    List Nat × BestState → Nat → List Nat × BestState
  | (curr, best), j =>
    if a[i]? = b[j]? then
      let val := prev.getD (j - bLo) 0 + 1
      if best.bestSize < val then (curr.set (j - bLo + 1) val, ⟨val, i + 1, j + 1⟩)
      else (curr.set (j - bLo + 1) val, best)
    else (curr, best)

/-- One iteration of the outer `for (let i = aLo; i < aHi; i++)` loop:
allocate `curr` as `bLen + 1` zeroes, run the inner loop, and hand `curr`
back as the next `prev` (the source copies `curr` into `prev` element-wise,
which on values is the same thing). -/
def lcbRow (a b : List String) (bLo bLen i : Nat) (prev : List Nat) (best : BestState) :
    List Nat × BestState :=
  (List.range' bLo bLen).foldl (lcbInnerStep a b i bLo prev) (List.replicate (bLen + 1) 0, best)

/-- The full DP sweep of `findLongestCommonBlock` (both nested loops),
starting from an all-zero `prev` row and best `⟨0, aLo, bLo⟩`. -/
def lcbRows (a b : List String) (aLo aHi bLo bHi : Nat) : List Nat × BestState :=
  (List.range' aLo (aHi - aLo)).foldl
    (fun pb i => lcbRow a b bLo (bHi - bLo) i pb.1 pb.2)
    (List.replicate (bHi - bLo + 1) 0, ⟨0, aLo, bLo⟩)

/-- Embedding of `findLongestCommonBlock`.  The source's guard
`aLo >= aHi || bLo >= bHi || bLen <= 0` is written as the equivalent
`aHi ≤ aLo ∨ bHi ≤ bLo` (on `Nat`, `bLen = bHi - bLo ≤ 0` is exactly
`bHi ≤ bLo`). -/
def findLongestCommonBlock (a b : List String) (aLo aHi bLo bHi : Nat) : MatchBlock :=
  if aHi ≤ aLo ∨ bHi ≤ bLo then ⟨aLo, bLo, 0⟩
  else
    let best := (lcbRows a b aLo aHi bLo bHi).2
    ⟨best.bestAEnd - best.bestSize, best.bestBEnd - best.bestSize, best.bestSize⟩

/-- Rectangular search region `[aLo,aHi) × [bLo,bHi)` of the work list. -/
structure Region where
  aLo : Nat
  aHi : Nat
  bLo : Nat
  bHi : Nat
deriving DecidableEq

/-- Fuel-indexed embedding of the `while (pending.length)` loop of
`findMatchingBlocks`.  The head of `pending` is the top of the stack
(`pending.pop()`); after a block is recorded the region after the block is
pushed last, hence sits at the head.  `none` means the fuel ran out, i.e.
the loop performed more iterations than the given bound. -/
def fmbLoop (a b : List String) (minMatchWords : Nat) :
    Nat → List Region → List MatchBlock → Option (List MatchBlock)
  | _, [], blocks => some blocks
  | 0, _ :: _, _ => none
  | fuel + 1, r :: rest, blocks =>
    let best := findLongestCommonBlock a b r.aLo r.aHi r.bLo r.bHi
    if best.size < minMatchWords then fmbLoop a b minMatchWords fuel rest blocks
    else
      fmbLoop a b minMatchWords fuel
        (⟨best.aStart + best.size, r.aHi, best.bStart + best.size, r.bHi⟩ ::
          ⟨r.aLo, best.aStart, r.bLo, best.bStart⟩ :: rest)
        (blocks ++ [best])

/-- Fuel bound used to run `fmbLoop`; proven sufficient for every
`minMatchWords ≥ 1` by the termination theorem. -/
def fmbFuel (a : List String) : Nat := 2 * a.length + 2

/-- Embedding of `findMatchingBlocks`: run the work-list loop, then sort the
recorded blocks by ascending `aStart` (the source's
`blocks.sort((x, y) => x.aStart - y.aStart)`, a stable sort). -/
def findMatchingBlocks (a b : List String) (minMatchWords : Nat) : List MatchBlock :=
  List.insertionSort (fun x y => x.aStart ≤ y.aStart)
    ((fmbLoop a b minMatchWords (fmbFuel a) [⟨0, a.length, 0, b.length⟩] []).getD [])

/-- Value-level body of the merging fold of `mergeRanges`: `cur` is the last
element of `merged`; an overlapping or touching next span extends
`cur.stop` in place, otherwise `cur` is emitted and the next span (the
source pushes a copy, `{...curr}`) becomes the new last element. -/
def mergeLoop (cur : TextSpan) : List TextSpan → List TextSpan
  | [] => [cur]
  | x :: xs =>
    if x.start ≤ cur.stop then mergeLoop ⟨cur.start, max cur.stop x.stop⟩ xs
    else cur :: mergeLoop x xs

/-- Embedding of `mergeRanges` (result-value semantics): stable-sort by
`start`, then fold.  The object-identity effects of the source (mutation of
the first sorted input span) are modelled separately by
`mergeRangesHeap`. -/
def mergeRanges (ranges : List TextSpan) : List TextSpan :=
  match List.insertionSort (fun x y => x.start ≤ y.start) ranges with
  | [] => []
  | r :: rs => mergeLoop r rs

/-- The `side` argument of `blocksToCharRanges` (source values `'a'` and `'b'`). -/
inductive Side where
  | a : Side
  | b : Side
deriving DecidableEq

/-- Token index of a block on the requested side. -/
def sideStart (side : Side) (blk : MatchBlock) : Nat :=
  match side with
  | Side.a => blk.aStart
  | Side.b => blk.bStart

/-- JavaScript array indexing with a possibly negative index:
`spans[i]` is `undefined` (here `none`) for `i < 0` or `i ≥ length`. -/
def jsIndex {α : Type} (l : List α) (i : Int) : Option α :=
  if i < 0 then none else l[i.toNat]?

/-- The `for (const block of blocks)` loop of `blocksToCharRanges`.
`tokenEnd` is computed in `Int` arithmetic because the source computes
`tokenStart + block.size - 1`, which is `-1` for a size-0 block at index 0.
Reading `.start`/`.end` of an `undefined` element throws in JavaScript;
that is the `none` result. -/
def b2crLoop (spans : List TokenSpan) (side : Side) : List MatchBlock → Option (List TextSpan)
  | [] => some []
  | blk :: rest =>
    let tokenStart : Int := sideStart side blk
    let tokenEnd : Int := tokenStart + blk.size - 1
    if tokenStart < 0 ∨ (spans.length : Int) ≤ tokenEnd then b2crLoop spans side rest
    else
      match jsIndex spans tokenStart, jsIndex spans tokenEnd with
      | some s1, some s2 => (b2crLoop spans side rest).map (fun l => ⟨s1.start, s2.stop⟩ :: l)
      | _, _ => none

/-- Embedding of `blocksToCharRanges`: the per-block loop followed by
`mergeRanges`. -/
def blocksToCharRanges (blocks : List MatchBlock) (spans : List TokenSpan) (side : Side) :
    Option (List TextSpan) :=
  (b2crLoop spans side blocks).map mergeRanges

/-- Output segment of the highlight renderer: the source builds plain text
fragments and `<mark>` nodes; only the kind and the text content matter. -/
inductive Segment where
  | plain (text : List Char)
  | highlight (text : List Char)
deriving DecidableEq

/-- Text content of a segment. -/
def segText : Segment → List Char
  | Segment.plain t => t
  | Segment.highlight t => t

/-- JavaScript `text.slice(s, e)` on a character list (non-negative
arguments): characters of `[s, e)`, clamped to the text. -/
def jsSlice (text : List Char) (s e : Nat) : List Char := (text.take e).drop s

/-- The `ranges.forEach` walk of `highlightByRanges` plus the trailing
fragment: emit a plain gap fragment when `range.start > cursor`, then the
highlighted fragment, then continue from `range.end`. -/
def hlLoop (text : List Char) : Nat → List TextSpan → List Segment
  | cursor, [] =>
    if cursor < text.length then [Segment.plain (jsSlice text cursor text.length)] else []
  | cursor, r :: rs =>
    (if cursor < r.start then [Segment.plain (jsSlice text cursor r.start)] else []) ++
      (Segment.highlight (jsSlice text r.start r.stop) :: hlLoop text r.stop rs)

/-- Embedding of `highlightByRanges`.  For an empty range list the source
returns the raw string, i.e. the whole text as one plain segment. -/
def highlightByRanges (text : List Char) (ranges : List TextSpan) : List Segment :=
  if ranges.isEmpty then [Segment.plain text] else hlLoop text 0 ranges

/-- Concatenation of the text of a segment list. -/
def segsText (segs : List Segment) : List Char := (segs.map segText).flatten

/-- Order in which `[...ranges].sort((a, b) => a.start - b.start)` visits the
input array's indices: a stable sort of the positions by the `start` of the
span stored there.  Needed to model which input object is aliased by
`merged[0]`. -/
def sortIdxByStart (heap : List TextSpan) : List Nat :=
  List.insertionSort (fun i j => (heap.getD i ⟨0, 0⟩).start ≤ (heap.getD j ⟨0, 0⟩).start)
    (List.range heap.length)

/-- Object-level first phase of `mergeRanges`: while `merged` still is the
single aliased object `sorted[0]` (stored at position `r0` of the input
array), `last.end = Math.max(last.end, curr.end)` mutates the input array.
Returns the mutated array and the not-yet-consumed sort positions. -/
def mergePhase1 : List TextSpan → Nat → List Nat → List TextSpan × List Nat
  | heap, _, [] => (heap, [])
  | heap, r0, j :: js =>
    let last := heap.getD r0 ⟨0, 0⟩
    let curr := heap.getD j ⟨0, 0⟩
    if curr.start ≤ last.stop then
      mergePhase1 (heap.set r0 ⟨last.start, max last.stop curr.stop⟩) r0 js
    else (heap, j :: js)

/-- Object-level embedding of `mergeRanges` for a heap of distinct span
objects: returns the result array's values together with the final values
of the input array.  Once the first gap is found, every later `merged`
element is a copy (`{...curr}`), so the remainder is the value-level
`mergeLoop`. -/
def mergeRangesHeap (heap : List TextSpan) : List TextSpan × List TextSpan :=
  match sortIdxByStart heap with
  | [] => ([], heap)
  | r0 :: rest =>
    let res := mergePhase1 heap r0 rest
    let first := res.1.getD r0 ⟨0, 0⟩
    match res.2 with
    | [] => ([first], res.1)
    | j :: js => (first :: mergeLoop (res.1.getD j ⟨0, 0⟩) (js.map fun k => res.1.getD k ⟨0, 0⟩), res.1)

/-- Embedding of the end-to-end overlap computation (the `overlapRanges`
memo of the component): tokenize both texts, match blocks with
`minMatchWords = 3`, map each side back to merged character ranges. -/
def overlapRanges (humanText aiText : List Char) : Option (List TextSpan × List TextSpan) :=
  let humanSpans := tokenize humanText 0
  let aiSpans := tokenize aiText 0
  let blocks := findMatchingBlocks (humanSpans.map TokenSpan.token) (aiSpans.map TokenSpan.token) 3
  match blocksToCharRanges blocks humanSpans Side.a, blocksToCharRanges blocks aiSpans Side.b with
  | some h, some r => some (h, r)
  | _, _ => none

/-- The block occupies `[aStart, aStart+size) × [bStart, bStart+size)`
inside the region `[aLo,aHi) × [bLo,bHi)`. -/
def blockInRegion (blk : MatchBlock) (aLo aHi bLo bHi : Nat) : Prop :=
  aLo ≤ blk.aStart ∧ blk.aStart + blk.size ≤ aHi ∧ bLo ≤ blk.bStart ∧ blk.bStart + blk.size ≤ bHi

instance (blk : MatchBlock) (aLo aHi bLo bHi : Nat) :
    Decidable (blockInRegion blk aLo aHi bLo bHi) :=
  inferInstanceAs (Decidable (_ ∧ _ ∧ _ ∧ _))

/-- The block is a common run: the two token slices agree position by
position (with the same `Option`-valued lookup the source's `===` performs). -/
def blockMatches (a b : List String) (blk : MatchBlock) : Prop :=
  ∀ t, t < blk.size → a[blk.aStart + t]? = b[blk.bStart + t]?

instance (a b : List String) (blk : MatchBlock) : Decidable (blockMatches a b blk) :=
  inferInstanceAs (Decidable (∀ t, t < blk.size → a[blk.aStart + t]? = b[blk.bStart + t]?))

/-- Length of the common suffix ending at cell `(i, j)` of the DP sweep of
`findLongestCommonBlock`, bounded below by the region's corner
`(aLo, bLo)`: the mathematical value of `L[i][j]` in the specification. -/
def lcsuf (a b : List String) (aLo bLo : Nat) (i j : Nat) : Nat :=
  if a[i]? = b[j]? then
    if h : aLo < i ∧ bLo < j then lcsuf a b aLo bLo (i - 1) (j - 1) + 1 else 1
  else 0
termination_by i
decreasing_by omega

/-- Abstract best-cell step: the running best is replaced exactly when the
suffix length at the new cell strictly exceeds it. -/
def bestStep (a b : List String) (aLo bLo : Nat) (best : BestState) (c : Nat × Nat) : BestState :=
  if best.bestSize < lcsuf a b aLo bLo c.1 c.2 then ⟨lcsuf a b aLo bLo c.1 c.2, c.1 + 1, c.2 + 1⟩
  else best

/-- Cells of one DP row, in sweep order. -/
def rowCells (i bLo bLen : Nat) : List (Nat × Nat) :=
  (List.range' bLo bLen).map (fun j => (i, j))

/-- All cells of the region, in row-major sweep order. -/
def allCells (aLo aHi bLo bHi : Nat) : List (Nat × Nat) :=
  (List.range' aLo (aHi - aLo)).flatMap (fun i => rowCells i bLo (bHi - bLo))

/-- Row-major order on cells: lower row first, then lower column. -/
def rmBefore (c d : Nat × Nat) : Prop :=
  c.1 < d.1 ∨ (c.1 = d.1 ∧ c.2 < d.2)

instance : IsTotal TextSpan (fun x y => x.start ≤ y.start) :=
  ⟨fun x y => Nat.le_total x.start y.start⟩

instance : IsTrans TextSpan (fun x y => x.start ≤ y.start) :=
  ⟨fun _ _ _ h h' => Nat.le_trans h h'⟩

instance : IsTotal MatchBlock (fun x y => x.aStart ≤ y.aStart) :=
  ⟨fun x y => Nat.le_total x.aStart y.aStart⟩

instance : IsTrans MatchBlock (fun x y => x.aStart ≤ y.aStart) :=
  ⟨fun _ _ _ h h' => Nat.le_trans h h'⟩

/-- Value of the suffix-length function at a cell. -/
def cellVal (a b : List String) (aLo bLo : Nat) (c : Nat × Nat) : Nat :=
  lcsuf a b aLo bLo c.1 c.2

/-- Invariant of the best-cell bookkeeping after the cells `S` (in row-major
order) have been swept: the best size dominates every swept cell, a best of
size zero is still the initial state, and a positive best names the
row-major-first cell realizing the maximum. -/
def bestInv (a b : List String) (aLo bLo : Nat) (S : List (Nat × Nat)) (best : BestState) : Prop :=
  (∀ c ∈ S, cellVal a b aLo bLo c ≤ best.bestSize) ∧
  (best.bestSize = 0 → best = ⟨0, aLo, bLo⟩) ∧
  (0 < best.bestSize →
    ∃ c ∈ S, best.bestAEnd = c.1 + 1 ∧ best.bestBEnd = c.2 + 1 ∧
      cellVal a b aLo bLo c = best.bestSize ∧
      ∀ d ∈ S, rmBefore d c → cellVal a b aLo bLo d < best.bestSize)

/-- The `curr` row array agrees with `lcsuf` at row `i` for the columns
`< m` already swept (offset by one as in the source: `curr[j - bLo + 1]`),
and is still zero beyond. -/
def currSpec (a b : List String) (aLo bLo bLen i m : Nat) (curr : List Nat) : Prop :=
  curr.length = bLen + 1 ∧ curr.getD 0 0 = 0 ∧
  ∀ k, k < bLen → curr.getD (k + 1) 0 = if bLo + k < m then lcsuf a b aLo bLo i (bLo + k) else 0

/-- The `prev` row array holds row `i - 1` of `lcsuf` (all zeroes when `i`
is the first row of the region). -/
def prevSpec (a b : List String) (aLo bLo bLen i : Nat) (prev : List Nat) : Prop :=
  prev.length = bLen + 1 ∧ prev.getD 0 0 = 0 ∧
  ∀ k, k < bLen → prev.getD (k + 1) 0 = if aLo < i then lcsuf a b aLo bLo (i - 1) (bLo + k) else 0

/-- Total a-side width of the pending work list; together with the list
length it bounds the number of remaining loop iterations. -/
def pendingWeight (pending : List Region) : Nat :=
  (pending.map (fun r => r.aHi - r.aLo)).sum

/-- Invariant carried by the work loop for the basic block guarantees:
every recorded block is long enough, in bounds, and an actual match. -/
def blocksOK (a b : List String) (minW : Nat) (blks : List MatchBlock) : Prop :=
  ∀ blk ∈ blks, minW ≤ blk.size ∧ blk.aStart + blk.size ≤ a.length ∧
    blk.bStart + blk.size ≤ b.length ∧ blockMatches a b blk

/-- Every pending region stays inside the two token sequences. -/
def regionsOK (a b : List String) (pending : List Region) : Prop :=
  ∀ r ∈ pending, r.aHi ≤ a.length ∧ r.bHi ≤ b.length

/-- Two blocks occupy disjoint index intervals on both sides. -/
def blkDisj (x y : MatchBlock) : Prop :=
  (x.aStart + x.size ≤ y.aStart ∨ y.aStart + y.size ≤ x.aStart) ∧
  (x.bStart + x.size ≤ y.bStart ∨ y.bStart + y.size ≤ x.bStart)

instance (x y : MatchBlock) : Decidable (blkDisj x y) :=
  inferInstanceAs (Decidable (_ ∧ _))

/-- Two regions are disjoint on both axes. -/
def regDisj (r s : Region) : Prop :=
  (r.aHi ≤ s.aLo ∨ s.aHi ≤ r.aLo) ∧ (r.bHi ≤ s.bLo ∨ s.bHi ≤ r.bLo)

/-- A block's intervals avoid a region on both axes. -/
def regBlkDisj (r : Region) (x : MatchBlock) : Prop :=
  (x.aStart + x.size ≤ r.aLo ∨ r.aHi ≤ x.aStart) ∧
  (x.bStart + x.size ≤ r.bLo ∨ r.bHi ≤ x.bStart)

/-- Per-block character range as the specification describes it: defined
when the token-index range `[start, start + size)` of the requested side
lies inside the token list, the first token's `start` paired with the last
token's `end`. -/
def charRangeOf (spans : List TokenSpan) (side : Side) (blk : MatchBlock) : Option TextSpan :=
  if sideStart side blk + blk.size ≤ spans.length then
    some ⟨(spans.getD (sideStart side blk) ⟨"", 0, 0⟩).start,
          (spans.getD (sideStart side blk + blk.size - 1) ⟨"", 0, 0⟩).stop⟩
  else none

section LcsufLemmas

variable {a b : List String} {aLo bLo : Nat}

lemma lcsuf_pos_match {i j : Nat} (h : 0 < lcsuf a b aLo bLo i j) : a[i]? = b[j]? := by
  by_contra hne
  rw [lcsuf, if_neg hne] at h
  exact absurd h (lt_irrefl 0)

lemma lcsuf_le_a : ∀ i j, aLo ≤ i → lcsuf a b aLo bLo i j ≤ i + 1 - aLo := by
  intro i
  induction i using Nat.strong_induction_on with
  | _ i ih =>
    intro j hi
    rw [lcsuf]
    by_cases hm : a[i]? = b[j]?
    · rw [if_pos hm]
      by_cases hab : aLo < i ∧ bLo < j
      · rw [dif_pos hab]
        have := ih (i - 1) (by omega) (j - 1) (by omega)
        omega
      · rw [dif_neg hab]
        omega
    · rw [if_neg hm]
      omega

lemma lcsuf_le_b : ∀ i j, bLo ≤ j → lcsuf a b aLo bLo i j ≤ j + 1 - bLo := by
  intro i
  induction i using Nat.strong_induction_on with
  | _ i ih =>
    intro j hj
    rw [lcsuf]
    by_cases hm : a[i]? = b[j]?
    · rw [if_pos hm]
      by_cases hab : aLo < i ∧ bLo < j
      · rw [dif_pos hab]
        have := ih (i - 1) (by omega) (j - 1) (by omega)
        omega
      · rw [dif_neg hab]
        omega
    · rw [if_neg hm]
      omega

lemma lcsuf_matches : ∀ t i j, t < lcsuf a b aLo bLo i j → a[i - t]? = b[j - t]? := by
  intro t
  induction t with
  | zero =>
    intro i j h
    simpa using lcsuf_pos_match h
  | succ t ih =>
    intro i j h
    rw [lcsuf] at h
    by_cases hm : a[i]? = b[j]?
    · rw [if_pos hm] at h
      by_cases hab : aLo < i ∧ bLo < j
      · rw [dif_pos hab] at h
        have h2 : t < lcsuf a b aLo bLo (i - 1) (j - 1) := by omega
        have h3 := ih (i - 1) (j - 1) h2
        have hi : i - (t + 1) = i - 1 - t := by omega
        have hj : j - (t + 1) = j - 1 - t := by omega
        rw [hi, hj]
        exact h3
      · rw [dif_neg hab] at h
        omega
    · rw [if_neg hm] at h
      omega

lemma lcsuf_ge : ∀ s i j, aLo + s ≤ i + 1 → bLo + s ≤ j + 1 →
    (∀ t, t < s → a[i - t]? = b[j - t]?) → s ≤ lcsuf a b aLo bLo i j := by
  intro s
  induction s with
  | zero => intro i j _ _ _; exact Nat.zero_le _
  | succ s ih =>
    intro i j ha hb hmt
    have hm : a[i]? = b[j]? := by simpa using hmt 0 (by omega)
    rw [lcsuf, if_pos hm]
    by_cases hab : aLo < i ∧ bLo < j
    · rw [dif_pos hab]
      have hs : s ≤ lcsuf a b aLo bLo (i - 1) (j - 1) := by
        apply ih
        · omega
        · omega
        · intro t ht
          have h3 := hmt (t + 1) (by omega)
          have hi : i - (t + 1) = i - 1 - t := by omega
          have hj : j - (t + 1) = j - 1 - t := by omega
          rw [hi, hj] at h3
          exact h3
      omega
    · rw [dif_neg hab]
      have : ¬ aLo < i ∨ ¬ bLo < j := by tauto
      omega

end LcsufLemmas

lemma rmBefore_asymm {c d : Nat × Nat} (h : rmBefore c d) : ¬ rmBefore d c := by
  unfold rmBefore at *
  omega

lemma rmBefore_irrefl (c : Nat × Nat) : ¬ rmBefore c c := by
  unfold rmBefore
  omega

lemma bestStep_inv {a b : List String} {aLo bLo : Nat} {S : List (Nat × Nat)}
    {best : BestState} {c0 : Nat × Nat}
    (hI : bestInv a b aLo bLo S best) (hS : ∀ c ∈ S, rmBefore c c0) :
    bestInv a b aLo bLo (S ++ [c0]) (bestStep a b aLo bLo best c0) := by
  obtain ⟨hA, hB, hC⟩ := hI
  unfold bestStep
  by_cases hlt : best.bestSize < lcsuf a b aLo bLo c0.1 c0.2
  · rw [if_pos hlt]
    refine ⟨?_, ?_, ?_⟩
    · intro c hc
      rcases List.mem_append.1 hc with hc | hc
      · exact le_of_lt (lt_of_le_of_lt (hA c hc) hlt)
      · simp only [List.mem_singleton] at hc
        subst hc
        exact le_refl _
    · intro h0
      exfalso
      simp only at h0
      omega
    · intro _
      refine ⟨c0, List.mem_append_right _ (List.mem_singleton_self _), rfl, rfl, rfl, ?_⟩
      intro d hd hrm
      rcases List.mem_append.1 hd with hd | hd
      · exact lt_of_le_of_lt (hA d hd) hlt
      · simp only [List.mem_singleton] at hd
        subst hd
        exact absurd hrm (rmBefore_irrefl _)
  · rw [if_neg hlt]
    refine ⟨?_, hB, ?_⟩
    · intro c hc
      rcases List.mem_append.1 hc with hc | hc
      · exact hA c hc
      · simp only [List.mem_singleton] at hc
        subst hc
        unfold cellVal
        omega
    · intro hpos
      obtain ⟨c, hcS, h1, h2, h3, h4⟩ := hC hpos
      refine ⟨c, List.mem_append_left _ hcS, h1, h2, h3, ?_⟩
      intro d hd hrm
      rcases List.mem_append.1 hd with hd | hd
      · exact h4 d hd hrm
      · simp only [List.mem_singleton] at hd
        subst hd
        exact absurd hrm (rmBefore_asymm (hS c hcS))

lemma bestFold_inv {a b : List String} {aLo bLo : Nat} :
    ∀ (cells S : List (Nat × Nat)) (best : BestState),
    bestInv a b aLo bLo S best →
    (∀ c ∈ S, ∀ d ∈ cells, rmBefore c d) →
    cells.Pairwise rmBefore →
    bestInv a b aLo bLo (S ++ cells) (cells.foldl (bestStep a b aLo bLo) best) := by
  intro cells
  induction cells with
  | nil =>
    intro S best hI _ _
    simpa using hI
  | cons c0 rest ih =>
    intro S best hI hSC hP
    rw [List.foldl_cons]
    have hstep : bestInv a b aLo bLo (S ++ [c0]) (bestStep a b aLo bLo best c0) :=
      bestStep_inv hI (fun c hc => hSC c hc c0 (List.mem_cons_self _ _))
    rw [List.pairwise_cons] at hP
    have hsc2 : ∀ c ∈ S ++ [c0], ∀ d ∈ rest, rmBefore c d := by
      intro c hc d hd
      rcases List.mem_append.1 hc with hc | hc
      · exact hSC c hc d (List.mem_cons_of_mem _ hd)
      · simp only [List.mem_singleton] at hc
        subst hc
        exact hP.1 d hd
    have := ih (S ++ [c0]) (bestStep a b aLo bLo best c0) hstep hsc2 hP.2
    rwa [List.append_assoc, List.singleton_append] at this

lemma getD_replicate_zero (n k : Nat) : (List.replicate n (0 : Nat)).getD k 0 = 0 := by
  rw [List.getD_eq_getElem?_getD, List.getElem?_replicate]
  split <;> rfl

lemma currSpec_replicate {a b : List String} {aLo bLo bLen i : Nat} :
    currSpec a b aLo bLo bLen i bLo (List.replicate (bLen + 1) 0) := by
  refine ⟨List.length_replicate _ _, getD_replicate_zero _ _, ?_⟩
  intro k _
  rw [getD_replicate_zero, if_neg (by omega)]

lemma prevSpec_replicate {a b : List String} {aLo bLo bLen : Nat} :
    prevSpec a b aLo bLo bLen aLo (List.replicate (bLen + 1) 0) := by
  refine ⟨List.length_replicate _ _, getD_replicate_zero _ _, ?_⟩
  intro k _
  rw [getD_replicate_zero, if_neg (by omega : ¬ aLo < aLo)]

lemma currSpec_to_prevSpec {a b : List String} {aLo bLo bLen i : Nat} {curr : List Nat}
    (h : currSpec a b aLo bLo bLen i (bLo + bLen) curr) (hi : aLo ≤ i) :
    prevSpec a b aLo bLo bLen (i + 1) curr := by
  obtain ⟨h1, h2, h3⟩ := h
  refine ⟨h1, h2, ?_⟩
  intro k hk
  rw [h3 k hk, if_pos (by omega), if_pos (by omega)]
  simp

/-- Reading `prev[j - bLo]` and adding one yields exactly the suffix length
at the current cell, provided the cell's tokens match. -/
lemma prev_val {a b : List String} {aLo bLo bLen i m : Nat} {prev : List Nat}
    (hprev : prevSpec a b aLo bLo bLen i prev)
    (hm1 : bLo ≤ m) (hm2 : m < bLo + bLen) (hm : a[i]? = b[m]?) :
    prev.getD (m - bLo) 0 + 1 = lcsuf a b aLo bLo i m := by
  obtain ⟨hpl, hp0, hpk⟩ := hprev
  by_cases hmb : bLo < m
  · have hk : m - bLo - 1 < bLen := by omega
    have he := hpk (m - bLo - 1) hk
    have hidx : m - bLo - 1 + 1 = m - bLo := by omega
    have hbk : bLo + (m - bLo - 1) = m - 1 := by omega
    rw [hidx, hbk] at he
    rw [lcsuf, if_pos hm]
    by_cases hai : aLo < i
    · rw [dif_pos ⟨hai, hmb⟩, he, if_pos hai]
    · rw [dif_neg (by tauto), he, if_neg hai]
  · have hmeq : m - bLo = 0 := by omega
    rw [hmeq, hp0, lcsuf, if_pos hm, dif_neg (by tauto)]

lemma currSpec_set {a b : List String} {aLo bLo bLen i m : Nat} {curr : List Nat} {v : Nat}
    (hcurr : currSpec a b aLo bLo bLen i m curr)
    (hm1 : bLo ≤ m) (_hm2 : m < bLo + bLen) (hval : v = lcsuf a b aLo bLo i m) :
    currSpec a b aLo bLo bLen i (m + 1) (curr.set (m - bLo + 1) v) := by
  obtain ⟨hcl, hc0, hck⟩ := hcurr
  refine ⟨by rw [List.length_set]; exact hcl, ?_, ?_⟩
  · rw [List.getD_eq_getElem?_getD, List.getElem?_set_ne (by omega),
      ← List.getD_eq_getElem?_getD]
    exact hc0
  · intro k hk
    by_cases hkm : k = m - bLo
    · subst hkm
      rw [List.getD_eq_getElem?_getD, List.getElem?_set_self (by rw [hcl]; omega)]
      simp only [Option.getD_some]
      rw [if_pos (by omega), hval]
      have hbk : bLo + (m - bLo) = m := by omega
      rw [hbk]
    · rw [List.getD_eq_getElem?_getD, List.getElem?_set_ne (by omega),
        ← List.getD_eq_getElem?_getD, hck k hk]
      by_cases h2 : bLo + k < m
      · rw [if_pos h2, if_pos (by omega)]
      · rw [if_neg h2, if_neg (by omega)]

/-- One inner-loop step both maintains the row description and performs
exactly the abstract best-cell step. -/
lemma lcbInnerStep_spec {a b : List String} {aLo bLo bLen i m : Nat}
    {prev curr : List Nat} {best : BestState}
    (hprev : prevSpec a b aLo bLo bLen i prev)
    (hcurr : currSpec a b aLo bLo bLen i m curr)
    (hm1 : bLo ≤ m) (hm2 : m < bLo + bLen) :
    currSpec a b aLo bLo bLen i (m + 1) ((lcbInnerStep a b i bLo prev (curr, best) m).1) ∧
    (lcbInnerStep a b i bLo prev (curr, best) m).2 = bestStep a b aLo bLo best (i, m) := by
  by_cases hm : a[i]? = b[m]?
  · have hval := prev_val hprev hm1 hm2 hm
    have hbs : bestStep a b aLo bLo best (i, m) =
        if best.bestSize < prev.getD (m - bLo) 0 + 1 then
          ⟨prev.getD (m - bLo) 0 + 1, i + 1, m + 1⟩
        else best := by
      unfold bestStep
      rw [show lcsuf a b aLo bLo (i, m).1 (i, m).2 = prev.getD (m - bLo) 0 + 1 from hval.symm]
    have hstep : lcbInnerStep a b i bLo prev (curr, best) m =
        (curr.set (m - bLo + 1) (prev.getD (m - bLo) 0 + 1),
          if best.bestSize < prev.getD (m - bLo) 0 + 1 then
            ⟨prev.getD (m - bLo) 0 + 1, i + 1, m + 1⟩
          else best) := by
      simp only [lcbInnerStep, if_pos hm]
      split <;> rfl
    rw [hstep, hbs]
    exact ⟨currSpec_set hcurr hm1 hm2 hval, rfl⟩
  · have hz : lcsuf a b aLo bLo i m = 0 := by rw [lcsuf, if_neg hm]
    have hstep : lcbInnerStep a b i bLo prev (curr, best) m = (curr, best) := by
      simp only [lcbInnerStep, if_neg hm]
    have hbs : bestStep a b aLo bLo best (i, m) = best := by
      unfold bestStep
      rw [show lcsuf a b aLo bLo (i, m).1 (i, m).2 = 0 from hz, if_neg (by omega)]
    rw [hstep, hbs]
    refine ⟨?_, rfl⟩
    obtain ⟨hcl, hc0, hck⟩ := hcurr
    refine ⟨hcl, hc0, ?_⟩
    intro k hk
    rw [hck k hk]
    by_cases hkm : bLo + k < m
    · rw [if_pos hkm, if_pos (by omega)]
    · by_cases hkm1 : bLo + k < m + 1
      · have hbm : bLo + k = m := by omega
        rw [if_neg hkm, if_pos hkm1, hbm, hz]
      · rw [if_neg hkm, if_neg hkm1]

/-- The whole inner loop: the final `curr` describes the full row, and the
best component evolves exactly as the abstract fold over the row's cells. -/
lemma lcbInner_fold {a b : List String} {aLo bLo bLen i : Nat} {prev : List Nat}
    (hprev : prevSpec a b aLo bLo bLen i prev) :
    ∀ (n m : Nat) (cb : List Nat × BestState), bLo ≤ m → m + n = bLo + bLen →
    currSpec a b aLo bLo bLen i m cb.1 →
    currSpec a b aLo bLo bLen i (bLo + bLen)
      (((List.range' m n).foldl (lcbInnerStep a b i bLo prev) cb).1) ∧
    ((List.range' m n).foldl (lcbInnerStep a b i bLo prev) cb).2 =
      ((List.range' m n).map (fun j => (i, j))).foldl (bestStep a b aLo bLo) cb.2 := by
  intro n
  induction n with
  | zero =>
    intro m cb hm hmn hcurr
    have hme : m = bLo + bLen := by omega
    subst hme
    simp only [List.range'_zero, List.foldl_nil, List.map_nil]
    exact ⟨hcurr, trivial⟩
  | succ n ih =>
    intro m cb hm hmn hcurr
    rw [List.range'_succ]
    simp only [List.foldl_cons, List.map_cons]
    have hstep := @lcbInnerStep_spec a b aLo bLo bLen i m prev cb.1 cb.2 hprev hcurr hm (by omega)
    have hrest := ih (m + 1) (lcbInnerStep a b i bLo prev (cb.1, cb.2) m)
      (by omega) (by omega) hstep.1
    refine ⟨hrest.1, ?_⟩
    have h2 := hrest.2
    rw [hstep.2] at h2
    exact h2

/-- The outer loop: the final best is the abstract fold over all cells of
the remaining rows in row-major order. -/
lemma lcbRows_fold {a b : List String} {aLo bLo bLen : Nat} :
    ∀ (n i : Nat) (pb : List Nat × BestState),
    prevSpec a b aLo bLo bLen i pb.1 → aLo ≤ i →
    ((List.range' i n).foldl (fun pb i' => lcbRow a b bLo bLen i' pb.1 pb.2) pb).2 =
      ((List.range' i n).flatMap (fun i' => rowCells i' bLo bLen)).foldl
        (bestStep a b aLo bLo) pb.2 := by
  intro n
  induction n with
  | zero =>
    intro i pb _ _
    simp
  | succ n ih =>
    intro i pb hprev hi
    rw [List.range'_succ]
    simp only [List.foldl_cons, List.flatMap_cons, List.foldl_append]
    have hinner := lcbInner_fold hprev bLen bLo (List.replicate (bLen + 1) 0, pb.2)
      (le_refl bLo) (by omega) currSpec_replicate
    have hprev2 : prevSpec a b aLo bLo bLen (i + 1) (lcbRow a b bLo bLen i pb.1 pb.2).1 :=
      currSpec_to_prevSpec hinner.1 hi
    have hrest := ih (i + 1) (lcbRow a b bLo bLen i pb.1 pb.2) hprev2 (by omega)
    have h2 : (lcbRow a b bLo bLen i pb.1 pb.2).2 =
        (rowCells i bLo bLen).foldl (bestStep a b aLo bLo) pb.2 := hinner.2
    rw [← h2]
    exact hrest

/-- Cells of a row, characterised. -/
lemma mem_rowCells {i bLo bLen : Nat} {c : Nat × Nat} :
    c ∈ rowCells i bLo bLen ↔ c.1 = i ∧ bLo ≤ c.2 ∧ c.2 < bLo + bLen := by
  unfold rowCells
  rw [List.mem_map]
  constructor
  · rintro ⟨j, hj, rfl⟩
    rw [List.mem_range'_1] at hj
    exact ⟨rfl, hj.1, hj.2⟩
  · rintro ⟨h1, h2, h3⟩
    exact ⟨c.2, List.mem_range'_1.2 ⟨h2, h3⟩, by rw [← h1]⟩

/-- Cells of the region, characterised. -/
lemma mem_allCells {aLo aHi bLo bHi : Nat} {c : Nat × Nat} :
    c ∈ allCells aLo aHi bLo bHi ↔ aLo ≤ c.1 ∧ c.1 < aHi ∧ bLo ≤ c.2 ∧ c.2 < bHi := by
  unfold allCells
  rw [List.mem_flatMap]
  constructor
  · rintro ⟨i, hi, hc⟩
    rw [List.mem_range'_1] at hi
    rw [mem_rowCells] at hc
    omega
  · rintro ⟨h1, h2, h3, h4⟩
    exact ⟨c.1, List.mem_range'_1.2 ⟨h1, by omega⟩, mem_rowCells.2 ⟨rfl, h3, by omega⟩⟩

lemma pairwise_rowCells (i bLo bLen : Nat) : (rowCells i bLo bLen).Pairwise rmBefore := by
  unfold rowCells
  rw [List.pairwise_map]
  refine (List.pairwise_lt_range' bLo bLen).imp ?_
  intro x y hxy
  exact Or.inr ⟨rfl, hxy⟩

lemma pairwise_allCells (aLo aHi bLo bHi : Nat) :
    (allCells aLo aHi bLo bHi).Pairwise rmBefore := by
  unfold allCells
  generalize aHi - aLo = n
  induction n generalizing aLo with
  | zero => simp
  | succ n ih =>
    rw [List.range'_succ, List.flatMap_cons, List.pairwise_append]
    refine ⟨pairwise_rowCells _ _ _, ih (aLo + 1), ?_⟩
    intro c hc d hd
    rw [mem_rowCells] at hc
    rw [List.mem_flatMap] at hd
    obtain ⟨i, hi, hdi⟩ := hd
    rw [List.mem_range'_1] at hi
    rw [mem_rowCells] at hdi
    exact Or.inl (by omega)

/-- Final best state of the DP sweep satisfies the best-cell invariant over
all cells of the region. -/
lemma lcbRows_bestInv {a b : List String} {aLo aHi bLo bHi : Nat} :
    bestInv a b aLo bLo (allCells aLo aHi bLo bHi) ((lcbRows a b aLo aHi bLo bHi).2) := by
  have h := @lcbRows_fold a b aLo bLo (bHi - bLo) (aHi - aLo) aLo
    (List.replicate (bHi - bLo + 1) 0, (⟨0, aLo, bLo⟩ : BestState))
    (@prevSpec_replicate a b aLo bLo (bHi - bLo))
    (le_refl aLo)
  have h' : (lcbRows a b aLo aHi bLo bHi).2 =
      (allCells aLo aHi bLo bHi).foldl (bestStep a b aLo bLo) ⟨0, aLo, bLo⟩ := h
  rw [h']
  have hinit : bestInv a b aLo bLo [] ⟨0, aLo, bLo⟩ := by
    refine ⟨by simp, fun _ => rfl, by simp⟩
  have hmain := bestFold_inv (allCells aLo aHi bLo bHi) [] ⟨0, aLo, bLo⟩ hinit
    (by simp) (pairwise_allCells aLo aHi bLo bHi)
  simpa using hmain

lemma flcb_guard {a b : List String} {aLo aHi bLo bHi : Nat} (hg : aHi ≤ aLo ∨ bHi ≤ bLo) :
    findLongestCommonBlock a b aLo aHi bLo bHi = ⟨aLo, bLo, 0⟩ := by
  unfold findLongestCommonBlock
  rw [if_pos hg]

lemma flcb_no_guard {a b : List String} {aLo aHi bLo bHi : Nat}
    (hg : ¬ (aHi ≤ aLo ∨ bHi ≤ bLo)) :
    findLongestCommonBlock a b aLo aHi bLo bHi =
      ⟨(lcbRows a b aLo aHi bLo bHi).2.bestAEnd - (lcbRows a b aLo aHi bLo bHi).2.bestSize,
       (lcbRows a b aLo aHi bLo bHi).2.bestBEnd - (lcbRows a b aLo aHi bLo bHi).2.bestSize,
       (lcbRows a b aLo aHi bLo bHi).2.bestSize⟩ := by
  unfold findLongestCommonBlock
  rw [if_neg hg]

/-- Soundness of the DP sweep: a positive-size result names an actual
common contiguous run lying inside the searched region. -/
lemma flcb_sound {a b : List String} {aLo aHi bLo bHi : Nat}
    (h : 1 ≤ (findLongestCommonBlock a b aLo aHi bLo bHi).size) :
    blockInRegion (findLongestCommonBlock a b aLo aHi bLo bHi) aLo aHi bLo bHi ∧
    blockMatches a b (findLongestCommonBlock a b aLo aHi bLo bHi) := by
  by_cases hg : aHi ≤ aLo ∨ bHi ≤ bLo
  · rw [flcb_guard hg] at h
    simp only [] at h
    exact absurd h (by omega)
  · rw [flcb_no_guard hg] at h ⊢
    obtain ⟨hA, hB, hC⟩ :=
      @lcbRows_bestInv a b aLo aHi bLo bHi
    simp only [] at h
    obtain ⟨c, hcmem, h1, h2, h3, _⟩ := hC (by omega)
    rw [mem_allCells] at hcmem
    obtain ⟨hc1, hc2, hc3, hc4⟩ := hcmem
    have hla := @lcsuf_le_a a b aLo bLo c.1 c.2 hc1
    have hlb := @lcsuf_le_b a b aLo bLo c.1 c.2 hc3
    unfold cellVal at h3
    constructor
    · unfold blockInRegion
      simp only []
      omega
    · unfold blockMatches
      simp only []
      intro t ht
      have hu : (lcbRows a b aLo aHi bLo bHi).2.bestSize - 1 - t < lcsuf a b aLo bLo c.1 c.2 := by
        omega
      have hmt := lcsuf_matches _ c.1 c.2 hu
      have hidx1 : c.1 - ((lcbRows a b aLo aHi bLo bHi).2.bestSize - 1 - t) =
          (lcbRows a b aLo aHi bLo bHi).2.bestAEnd - (lcbRows a b aLo aHi bLo bHi).2.bestSize + t := by
        omega
      have hidx2 : c.2 - ((lcbRows a b aLo aHi bLo bHi).2.bestSize - 1 - t) =
          (lcbRows a b aLo aHi bLo bHi).2.bestBEnd - (lcbRows a b aLo aHi bLo bHi).2.bestSize + t := by
        omega
      rw [hidx1, hidx2] at hmt
      exact hmt

/-- The end cell of a common block inside the region witnesses a suffix at
least as long as the block. -/
lemma block_end_lcsuf {a b : List String} {aLo aHi bLo bHi : Nat} {c : MatchBlock}
    (hin : blockInRegion c aLo aHi bLo bHi) (hmt : blockMatches a b c) (hpos : 1 ≤ c.size) :
    c.size ≤ lcsuf a b aLo bLo (c.aStart + c.size - 1) (c.bStart + c.size - 1) := by
  obtain ⟨h1, h2, h3, h4⟩ := hin
  apply lcsuf_ge
  · omega
  · omega
  · intro t ht
    have hm := hmt (c.size - 1 - t) (by omega)
    have hi1 : c.aStart + c.size - 1 - t = c.aStart + (c.size - 1 - t) := by omega
    have hi2 : c.bStart + c.size - 1 - t = c.bStart + (c.size - 1 - t) := by omega
    rw [hi1, hi2]
    exact hm

/-- Maximality: no common contiguous block inside the region beats the
result's size. -/
lemma flcb_max {a b : List String} {aLo aHi bLo bHi : Nat} (c : MatchBlock)
    (hin : blockInRegion c aLo aHi bLo bHi) (hmt : blockMatches a b c) :
    c.size ≤ (findLongestCommonBlock a b aLo aHi bLo bHi).size := by
  rcases Nat.eq_zero_or_pos c.size with hz | hpos
  · omega
  · by_cases hg : aHi ≤ aLo ∨ bHi ≤ bLo
    · obtain ⟨h1, h2, h3, h4⟩ := hin
      omega
    · rw [flcb_no_guard hg]
      obtain ⟨hA, hB, hC⟩ :=
        @lcbRows_bestInv a b aLo aHi bLo bHi
      obtain ⟨h1, h2, h3, h4⟩ := hin
      have hcell : ((c.aStart + c.size - 1, c.bStart + c.size - 1) : Nat × Nat) ∈
          allCells aLo aHi bLo bHi := by
        rw [mem_allCells]
        refine ⟨by omega, by omega, by omega, by omega⟩
      have hge := block_end_lcsuf ⟨h1, h2, h3, h4⟩ hmt hpos
      have hle := hA _ hcell
      unfold cellVal at hle
      simp only [] at hle ⊢
      omega

/-- Tie-break: among equal-size common blocks inside the region, the result
ends no later (row-major on end cells) than any of them. -/
lemma flcb_first {a b : List String} {aLo aHi bLo bHi : Nat} (c : MatchBlock)
    (hin : blockInRegion c aLo aHi bLo bHi) (hmt : blockMatches a b c)
    (hsz : c.size = (findLongestCommonBlock a b aLo aHi bLo bHi).size) (hpos : 1 ≤ c.size) :
    (findLongestCommonBlock a b aLo aHi bLo bHi).aStart +
        (findLongestCommonBlock a b aLo aHi bLo bHi).size < c.aStart + c.size ∨
    ((findLongestCommonBlock a b aLo aHi bLo bHi).aStart +
        (findLongestCommonBlock a b aLo aHi bLo bHi).size = c.aStart + c.size ∧
      (findLongestCommonBlock a b aLo aHi bLo bHi).bStart +
        (findLongestCommonBlock a b aLo aHi bLo bHi).size ≤ c.bStart + c.size) := by
  by_cases hg : aHi ≤ aLo ∨ bHi ≤ bLo
  · rw [flcb_guard hg] at hsz
    simp only [] at hsz
    omega
  · rw [flcb_no_guard hg] at hsz ⊢
    obtain ⟨hA, hB, hC⟩ :=
      @lcbRows_bestInv a b aLo aHi bLo bHi
    simp only [] at hsz ⊢
    obtain ⟨cb, hcbmem, he1, he2, he3, h4⟩ := hC (by omega)
    rw [mem_allCells] at hcbmem
    obtain ⟨hb1, hb2, hb3, hb4⟩ := hcbmem
    have hlb1 := @lcsuf_le_a a b aLo bLo cb.1 cb.2 hb1
    have hlb2 := @lcsuf_le_b a b aLo bLo cb.1 cb.2 hb3
    unfold cellVal at he3
    obtain ⟨h1, h2, h3, h4'⟩ := hin
    have hcell : ((c.aStart + c.size - 1, c.bStart + c.size - 1) : Nat × Nat) ∈
        allCells aLo aHi bLo bHi := by
      rw [mem_allCells]
      refine ⟨by omega, by omega, by omega, by omega⟩
    have hge := block_end_lcsuf ⟨h1, h2, h3, h4'⟩ hmt hpos
    have hle := hA _ hcell
    unfold cellVal at hle
    simp only [] at hle hge
    have hnotbefore : ¬ rmBefore (c.aStart + c.size - 1, c.bStart + c.size - 1) cb := by
      intro hbf
      have := h4 _ hcell hbf
      unfold cellVal at this
      simp only [] at this
      omega
    unfold rmBefore at hnotbefore
    simp only [] at hnotbefore
    omega

/-- The work loop finishes within fuel `2 * weight + length` whenever the
minimum match length is positive. -/
lemma fmbLoop_total {a b : List String} {minMatchWords : Nat} (hmin : 1 ≤ minMatchWords) :
    ∀ (fuel : Nat) (pending : List Region) (blocks : List MatchBlock),
    2 * pendingWeight pending + pending.length ≤ fuel →
    (fmbLoop a b minMatchWords fuel pending blocks).isSome := by
  intro fuel
  induction fuel with
  | zero =>
    intro pending blocks hw
    cases pending with
    | nil => simp [fmbLoop]
    | cons r rest =>
      exfalso
      simp [pendingWeight] at hw
  | succ fuel ih =>
    intro pending blocks hw
    cases pending with
    | nil => simp [fmbLoop]
    | cons r rest =>
      simp only [fmbLoop]
      by_cases hlt : (findLongestCommonBlock a b r.aLo r.aHi r.bLo r.bHi).size < minMatchWords
      · rw [if_pos hlt]
        apply ih
        simp only [pendingWeight, List.map_cons, List.sum_cons, List.length_cons] at hw ⊢
        omega
      · rw [if_neg hlt]
        apply ih
        have hsz : 1 ≤ (findLongestCommonBlock a b r.aLo r.aHi r.bLo r.bHi).size := by omega
        obtain ⟨⟨h1, h2, h3, h4⟩, _⟩ := flcb_sound hsz
        simp only [pendingWeight, List.map_cons, List.sum_cons, List.length_cons] at hw ⊢
        omega

lemma fmbLoop_sound {a b : List String} {minW : Nat} (hmin : 1 ≤ minW) :
    ∀ (fuel : Nat) (pending : List Region) (blocks out : List MatchBlock),
    regionsOK a b pending → blocksOK a b minW blocks →
    fmbLoop a b minW fuel pending blocks = some out → blocksOK a b minW out := by
  intro fuel
  induction fuel with
  | zero =>
    intro pending blocks out hr hb heq
    cases pending with
    | nil =>
      simp only [fmbLoop, Option.some.injEq] at heq
      rw [← heq]
      exact hb
    | cons r rest => simp [fmbLoop] at heq
  | succ fuel ih =>
    intro pending blocks out hr hb heq
    cases pending with
    | nil =>
      simp only [fmbLoop, Option.some.injEq] at heq
      rw [← heq]
      exact hb
    | cons r rest =>
      simp only [fmbLoop] at heq
      by_cases hlt : (findLongestCommonBlock a b r.aLo r.aHi r.bLo r.bHi).size < minW
      · rw [if_pos hlt] at heq
        exact ih rest blocks out (fun s hs => hr s (List.mem_cons_of_mem _ hs)) hb heq
      · rw [if_neg hlt] at heq
        have hsz : 1 ≤ (findLongestCommonBlock a b r.aLo r.aHi r.bLo r.bHi).size := by omega
        obtain ⟨⟨h1, h2, h3, h4⟩, hmt⟩ := flcb_sound hsz
        obtain ⟨hra, hrb⟩ := hr r (List.mem_cons_self _ _)
        apply ih _ _ _ ?_ ?_ heq
        · intro s hs
          simp only [List.mem_cons] at hs
          rcases hs with rfl | rfl | hs
          · constructor <;> (simp only []; omega)
          · constructor <;> (simp only []; omega)
          · exact hr s (List.mem_cons_of_mem _ hs)
        · intro blk hblk
          rcases List.mem_append.1 hblk with hblk | hblk
          · exact hb blk hblk
          · simp only [List.mem_singleton] at hblk
            subst hblk
            exact ⟨by omega, by omega, by omega, hmt⟩

lemma blkDisj_symm {x y : MatchBlock} (h : blkDisj x y) : blkDisj y x := by
  unfold blkDisj at *
  tauto

lemma fmbLoop_disjoint {a b : List String} {minW : Nat} (hmin : 1 ≤ minW) :
    ∀ (fuel : Nat) (pending : List Region) (blocks out : List MatchBlock),
    pending.Pairwise regDisj → blocks.Pairwise blkDisj →
    (∀ r ∈ pending, ∀ x ∈ blocks, regBlkDisj r x) →
    fmbLoop a b minW fuel pending blocks = some out → out.Pairwise blkDisj := by
  intro fuel
  induction fuel with
  | zero =>
    intro pending blocks out hp hbp hrb heq
    cases pending with
    | nil =>
      simp only [fmbLoop, Option.some.injEq] at heq
      rw [← heq]
      exact hbp
    | cons r rest => simp [fmbLoop] at heq
  | succ fuel ih =>
    intro pending blocks out hp hbp hrb heq
    cases pending with
    | nil =>
      simp only [fmbLoop, Option.some.injEq] at heq
      rw [← heq]
      exact hbp
    | cons r rest =>
      simp only [fmbLoop] at heq
      by_cases hlt : (findLongestCommonBlock a b r.aLo r.aHi r.bLo r.bHi).size < minW
      · rw [if_pos hlt] at heq
        rw [List.pairwise_cons] at hp
        exact ih rest blocks out hp.2 hbp
          (fun s hs x hx => hrb s (List.mem_cons_of_mem _ hs) x hx) heq
      · rw [if_neg hlt] at heq
        have hsz : 1 ≤ (findLongestCommonBlock a b r.aLo r.aHi r.bLo r.bHi).size := by omega
        obtain ⟨⟨h1, h2, h3, h4⟩, _⟩ := flcb_sound hsz
        rw [List.pairwise_cons] at hp
        apply ih _ _ _ ?_ ?_ ?_ heq
        · -- new pending pairwise disjoint
          rw [List.pairwise_cons]
          constructor
          · intro s hs
            simp only [List.mem_cons] at hs
            rcases hs with rfl | hs
            · unfold regDisj
              constructor <;> (simp only []; omega)
            · have := hp.1 s hs
              unfold regDisj at this ⊢
              simp only []
              omega
          · rw [List.pairwise_cons]
            refine ⟨?_, hp.2⟩
            intro s hs
            have := hp.1 s hs
            unfold regDisj at this ⊢
            simp only []
            omega
        · -- blocks ++ [best] pairwise disjoint
          rw [List.pairwise_append]
          refine ⟨hbp, List.pairwise_singleton _ _, ?_⟩
          intro x hx y hy
          simp only [List.mem_singleton] at hy
          subst hy
          have := hrb r (List.mem_cons_self _ _) x hx
          unfold regBlkDisj at this
          unfold blkDisj
          omega
        · -- every new region avoids every recorded block
          intro s hs x hx
          simp only [List.mem_cons] at hs
          rcases List.mem_append.1 hx with hx | hx
          · rcases hs with rfl | rfl | hs
            · have := hrb r (List.mem_cons_self _ _) x hx
              unfold regBlkDisj at this ⊢
              simp only []
              omega
            · have := hrb r (List.mem_cons_self _ _) x hx
              unfold regBlkDisj at this ⊢
              simp only []
              omega
            · exact hrb s (List.mem_cons_of_mem _ hs) x hx
          · simp only [List.mem_singleton] at hx
            subst hx
            rcases hs with rfl | rfl | hs
            · unfold regBlkDisj
              constructor <;> (simp only []; omega)
            · unfold regBlkDisj
              constructor <;> (simp only []; omega)
            · have := hp.1 s hs
              unfold regDisj at this
              unfold regBlkDisj
              omega

/-- With `minMatchWords = 0` the loop reproduces the empty region forever:
it runs out of any fuel, i.e. the source's `while` loop never terminates. -/
lemma fmbLoop_zero_diverges :
    ∀ (fuel : Nat) (pending : List Region) (blocks : List MatchBlock),
    pending ≠ [] → (∀ r ∈ pending, r = ⟨0, 0, 0, 0⟩) →
    fmbLoop [] [] 0 fuel pending blocks = none := by
  intro fuel
  induction fuel with
  | zero =>
    intro pending blocks hne _
    cases pending with
    | nil => exact absurd rfl hne
    | cons r rest => simp [fmbLoop]
  | succ fuel ih =>
    intro pending blocks hne hall
    cases pending with
    | nil => exact absurd rfl hne
    | cons r rest =>
      have hr := hall r (List.mem_cons_self _ _)
      subst hr
      simp only [fmbLoop]
      have hf : findLongestCommonBlock [] [] 0 0 0 0 = ⟨0, 0, 0⟩ := rfl
      simp only [hf]
      rw [if_neg (by simp)]
      apply ih
      · simp
      · intro s hs
        simp only [List.mem_cons] at hs
        rcases hs with rfl | rfl | hs
        · rfl
        · rfl
        · exact hall s (List.mem_cons_of_mem _ hs)

lemma mergeLoop_head : ∀ (rs : List TextSpan) (cur : TextSpan),
    ∃ e rest, mergeLoop cur rs = ⟨cur.start, e⟩ :: rest ∧ cur.stop ≤ e := by
  intro rs
  induction rs with
  | nil =>
    intro cur
    exact ⟨cur.stop, [], rfl, le_refl _⟩
  | cons x xs ih =>
    intro cur
    simp only [mergeLoop]
    by_cases h : x.start ≤ cur.stop
    · rw [if_pos h]
      obtain ⟨e, rest, heq, hle⟩ := ih ⟨cur.start, max cur.stop x.stop⟩
      refine ⟨e, rest, heq, ?_⟩
      simp only [] at hle
      omega
    · rw [if_neg h]
      exact ⟨cur.stop, mergeLoop x xs, rfl, le_refl _⟩

lemma mergeLoop_chain : ∀ (rs : List TextSpan) (cur : TextSpan),
    (mergeLoop cur rs).Chain' (fun x y => x.stop < y.start) := by
  intro rs
  induction rs with
  | nil => intro cur; simp [mergeLoop]
  | cons x xs ih =>
    intro cur
    simp only [mergeLoop]
    by_cases h : x.start ≤ cur.stop
    · rw [if_pos h]
      exact ih _
    · rw [if_neg h]
      obtain ⟨e, rest, heq, hle⟩ := mergeLoop_head xs x
      rw [heq, List.chain'_cons]
      constructor
      · simp only []
        omega
      · rw [← heq]
        exact ih x

lemma mergeLoop_mem_starts : ∀ (rs : List TextSpan) (cur y : TextSpan),
    y ∈ mergeLoop cur rs → y.start = cur.start ∨ ∃ x ∈ rs, y.start = x.start := by
  intro rs
  induction rs with
  | nil =>
    intro cur y hy
    simp only [mergeLoop, List.mem_singleton] at hy
    subst hy
    exact Or.inl rfl
  | cons x xs ih =>
    intro cur y hy
    simp only [mergeLoop] at hy
    by_cases h : x.start ≤ cur.stop
    · rw [if_pos h] at hy
      rcases ih _ y hy with h1 | ⟨z, hz, h2⟩
      · exact Or.inl h1
      · exact Or.inr ⟨z, List.mem_cons_of_mem _ hz, h2⟩
    · rw [if_neg h] at hy
      rcases List.mem_cons.1 hy with rfl | hy
      · exact Or.inl rfl
      · rcases ih x y hy with h1 | ⟨z, hz, h2⟩
        · exact Or.inr ⟨x, List.mem_cons_self _ _, h1⟩
        · exact Or.inr ⟨z, List.mem_cons_of_mem _ hz, h2⟩

lemma mergeLoop_sorted : ∀ (rs : List TextSpan) (cur : TextSpan),
    (cur :: rs).Pairwise (fun x y => x.start ≤ y.start) →
    (mergeLoop cur rs).Pairwise (fun x y => x.start ≤ y.start) := by
  intro rs
  induction rs with
  | nil => intro cur _; simp [mergeLoop]
  | cons x xs ih =>
    intro cur hs
    rw [List.pairwise_cons] at hs
    simp only [mergeLoop]
    by_cases h : x.start ≤ cur.stop
    · rw [if_pos h]
      apply ih
      rw [List.pairwise_cons]
      refine ⟨?_, hs.2.of_cons⟩
      intro y hy
      simp only []
      exact hs.1 y (List.mem_cons_of_mem _ hy)
    · rw [if_neg h]
      rw [List.pairwise_cons]
      constructor
      · intro y hy
        rcases mergeLoop_mem_starts xs x y hy with h1 | ⟨z, hz, h2⟩
        · rw [h1]
          exact hs.1 x (List.mem_cons_self _ _)
        · rw [h2]
          exact hs.1 z (List.mem_cons_of_mem _ hz)
      · exact ih x hs.2

lemma mergeRanges_chain (ranges : List TextSpan) :
    (mergeRanges ranges).Chain' (fun x y => x.stop < y.start) := by
  unfold mergeRanges
  rcases hs : List.insertionSort (fun x y : TextSpan => x.start ≤ y.start) ranges with _ | ⟨r, rs⟩
  · exact List.chain'_nil
  · exact mergeLoop_chain rs r

lemma mergeRanges_sorted (ranges : List TextSpan) :
    (mergeRanges ranges).Pairwise (fun x y => x.start ≤ y.start) := by
  unfold mergeRanges
  have hsorted := List.sorted_insertionSort (fun x y : TextSpan => x.start ≤ y.start) ranges
  rcases hs : List.insertionSort (fun x y : TextSpan => x.start ≤ y.start) ranges with _ | ⟨r, rs⟩
  · exact List.Pairwise.nil
  · rw [hs] at hsorted
    exact mergeLoop_sorted rs r hsorted

lemma mergeLoop_fixed : ∀ (rs : List TextSpan) (cur : TextSpan),
    (cur :: rs).Chain' (fun x y => x.stop < y.start) → mergeLoop cur rs = cur :: rs := by
  intro rs
  induction rs with
  | nil => intro cur _; rfl
  | cons x xs ih =>
    intro cur hc
    rw [List.chain'_cons] at hc
    simp only [mergeLoop]
    rw [if_neg (by omega)]
    rw [ih x hc.2]

lemma mergeRanges_fixed (ys : List TextSpan)
    (hsort : ys.Pairwise (fun x y => x.start ≤ y.start))
    (hchain : ys.Chain' (fun x y => x.stop < y.start)) :
    mergeRanges ys = ys := by
  have hs : List.insertionSort (fun x y : TextSpan => x.start ≤ y.start) ys = ys :=
    List.Sorted.insertionSort_eq hsort
  unfold mergeRanges
  rw [hs]
  cases ys with
  | nil => rfl
  | cons r rs => exact mergeLoop_fixed rs r hchain

lemma mergeRanges_idem (rs : List TextSpan) :
    mergeRanges (mergeRanges rs) = mergeRanges rs :=
  mergeRanges_fixed _ (mergeRanges_sorted rs) (mergeRanges_chain rs)

lemma b2crLoop_sizes : ∀ (blocks : List MatchBlock) (spans : List TokenSpan) (side : Side),
    (∀ blk ∈ blocks, 1 ≤ blk.size) →
    b2crLoop spans side blocks = some (blocks.filterMap (charRangeOf spans side)) := by
  intro blocks
  induction blocks with
  | nil => intro spans side _; rfl
  | cons blk rest ih =>
    intro spans side hsz
    have hpos := hsz blk (List.mem_cons_self _ _)
    have hrest := ih spans side (fun x hx => hsz x (List.mem_cons_of_mem _ hx))
    simp only [b2crLoop]
    by_cases hin : sideStart side blk + blk.size ≤ spans.length
    · rw [if_neg (by omega)]
      have hlt1 : sideStart side blk < spans.length := by omega
      have hlt2 : sideStart side blk + blk.size - 1 < spans.length := by omega
      have h1 : jsIndex spans (sideStart side blk : Int) =
          some (spans.getD (sideStart side blk) ⟨"", 0, 0⟩) := by
        unfold jsIndex
        rw [if_neg (by omega)]
        rw [show ((sideStart side blk : Int)).toNat = sideStart side blk from by omega]
        rw [List.getD_eq_getElem?_getD, List.getElem?_eq_getElem hlt1]
        rfl
      have h2 : jsIndex spans ((sideStart side blk : Int) + blk.size - 1) =
          some (spans.getD (sideStart side blk + blk.size - 1) ⟨"", 0, 0⟩) := by
        unfold jsIndex
        rw [if_neg (by omega)]
        rw [show ((sideStart side blk : Int) + blk.size - 1).toNat =
          sideStart side blk + blk.size - 1 from by omega]
        rw [List.getD_eq_getElem?_getD, List.getElem?_eq_getElem hlt2]
        rfl
      rw [h1, h2, hrest]
      simp only [List.filterMap_cons, charRangeOf, if_pos hin]
      rfl
    · rw [if_pos (by omega)]
      rw [hrest]
      simp only [List.filterMap_cons, charRangeOf, if_neg hin]

lemma blocksToCharRanges_sizes (blocks : List MatchBlock) (spans : List TokenSpan) (side : Side)
    (h : ∀ blk ∈ blocks, 1 ≤ blk.size) :
    blocksToCharRanges blocks spans side =
      some (mergeRanges (blocks.filterMap (charRangeOf spans side))) := by
  unfold blocksToCharRanges
  rw [b2crLoop_sizes blocks spans side h]
  rfl

lemma blocksToCharRanges_some {blocks : List MatchBlock} {spans : List TokenSpan} {side : Side}
    {l : List TextSpan} (h : blocksToCharRanges blocks spans side = some l) :
    ∃ raw, l = mergeRanges raw := by
  unfold blocksToCharRanges at h
  cases hb : b2crLoop spans side blocks with
  | none => rw [hb] at h; simp at h
  | some raw =>
    rw [hb] at h
    simp at h
    exact ⟨raw, h.symm⟩

lemma jsSlice_drop (t : List Char) (u v : Nat) (h1 : u ≤ v) (h2 : v ≤ t.length) :
    jsSlice t u v ++ t.drop v = t.drop u := by
  unfold jsSlice
  have h3 : t.drop u = (t.take v ++ t.drop v).drop u := by rw [List.take_append_drop]
  rw [h3, List.drop_append_eq_append_drop, List.length_take]
  rw [show u - min v t.length = 0 from by omega, List.drop_zero]

lemma hlLoop_join (text : List Char) : ∀ (rs : List TextSpan) (cursor : Nat),
    cursor ≤ text.length →
    rs.Chain' (fun r s => r.stop ≤ s.start) →
    (∀ r ∈ rs, r.start ≤ r.stop ∧ r.stop ≤ text.length) →
    (∀ r, rs.head? = some r → cursor ≤ r.start) →
    segsText (hlLoop text cursor rs) = text.drop cursor := by
  intro rs
  induction rs with
  | nil =>
    intro cursor hc _ _ _
    simp only [hlLoop]
    by_cases h : cursor < text.length
    · rw [if_pos h]
      simp [segsText, segText, jsSlice, List.take_length]
    · rw [if_neg h]
      have hd : text.drop cursor = [] := List.drop_eq_nil_of_le (by omega)
      simp [segsText, hd]
  | cons r rs ih =>
    intro cursor hc hchain hin hhead
    have hr := hin r (List.mem_cons_self _ _)
    have hcr : cursor ≤ r.start := hhead r rfl
    rw [List.chain'_cons'] at hchain
    simp only [hlLoop]
    unfold segsText
    rw [List.map_append, List.flatten_append]
    have hgap : ((if cursor < r.start then [Segment.plain (jsSlice text cursor r.start)]
        else []).map segText).flatten = jsSlice text cursor r.start := by
      by_cases h : cursor < r.start
      · rw [if_pos h]
        simp [segText]
      · rw [if_neg h]
        have hce : cursor = r.start := by omega
        simp only [List.map_nil, List.flatten_nil]
        rw [hce]
        exact (List.drop_eq_nil_of_le (by rw [List.length_take]; omega)).symm
    rw [hgap]
    have hrest : segsText (hlLoop text r.stop rs) = text.drop r.stop := by
      apply ih r.stop (by omega) hchain.2 (fun s hs => hin s (List.mem_cons_of_mem _ hs))
      intro s hs
      have := hchain.1 s
      rw [hs] at this
      exact this (by simp)
    have hmid : ((Segment.highlight (jsSlice text r.start r.stop) ::
        hlLoop text r.stop rs).map segText).flatten =
        jsSlice text r.start r.stop ++ segsText (hlLoop text r.stop rs) := by
      simp [segsText, segText]
    rw [hmid, hrest]
    rw [jsSlice_drop text r.start r.stop (by omega) (by omega)]
    rw [jsSlice_drop text cursor r.start (by omega) (by omega)]

lemma mergePhase1_preserve : ∀ (js : List Nat) (heap : List TextSpan) (r0 i : Nat), i ≠ r0 →
    ((mergePhase1 heap r0 js).1)[i]? = heap[i]? := by
  intro js
  induction js with
  | nil => intro heap r0 i _; rfl
  | cons j js ih =>
    intro heap r0 i hne
    simp only [mergePhase1]
    by_cases h : (heap.getD j ⟨0, 0⟩).start ≤ (heap.getD r0 ⟨0, 0⟩).stop
    · rw [if_pos h]
      rw [ih _ r0 i hne]
      exact List.getElem?_set_ne (by omega)
    · rw [if_neg h]

lemma mergeRangesHeap_snd {heap : List TextSpan} {i : Nat}
    (hne : i ≠ (sortIdxByStart heap).headD 0) :
    ((mergeRangesHeap heap).2)[i]? = heap[i]? := by
  simp only [mergeRangesHeap]
  rcases hs : sortIdxByStart heap with _ | ⟨r0, rest⟩
  · rfl
  · rw [hs] at hne
    simp only [List.headD_cons] at hne
    cases hres : (mergePhase1 heap r0 rest).2 with
    | nil =>
      simp only [hres]
      exact mergePhase1_preserve rest heap r0 i hne
    | cons j js =>
      simp only [hres]
      exact mergePhase1_preserve rest heap r0 i hne

/-- Running `findMatchingBlocks` for a positive minimum: the loop finishes
within the chosen fuel and the result is the sorted loop output. -/
lemma findMatchingBlocks_run {a b : List String} {minW : Nat} (hmin : 1 ≤ minW) :
    ∃ out, fmbLoop a b minW (fmbFuel a) [⟨0, a.length, 0, b.length⟩] [] = some out ∧
      findMatchingBlocks a b minW =
        List.insertionSort (fun x y => x.aStart ≤ y.aStart) out := by
  have htot := fmbLoop_total (a := a) (b := b) hmin (fmbFuel a) [⟨0, a.length, 0, b.length⟩] []
    (by simp [pendingWeight, fmbFuel])
  obtain ⟨out, hout⟩ := Option.isSome_iff_exists.1 htot
  refine ⟨out, hout, ?_⟩
  unfold findMatchingBlocks
  rw [hout]
  rfl

lemma findMatchingBlocks_sound {a b : List String} {minW : Nat} (hmin : 1 ≤ minW) :
    ∀ blk ∈ findMatchingBlocks a b minW,
      minW ≤ blk.size ∧ blk.aStart + blk.size ≤ a.length ∧
      blk.bStart + blk.size ≤ b.length ∧ blockMatches a b blk := by
  intro blk hblk
  obtain ⟨out, hout, heq⟩ := findMatchingBlocks_run hmin
  rw [heq, List.mem_insertionSort] at hblk
  have hreg : regionsOK a b [⟨0, a.length, 0, b.length⟩] := by
    intro r hr
    simp only [List.mem_singleton] at hr
    subst hr
    exact ⟨le_refl _, le_refl _⟩
  have hemp : blocksOK a b minW [] := by intro x hx; simp at hx
  exact fmbLoop_sound hmin (fmbFuel a) _ [] out hreg hemp hout blk hblk

lemma findMatchingBlocks_disjoint {a b : List String} {minW : Nat} (hmin : 1 ≤ minW) :
    (findMatchingBlocks a b minW).Pairwise blkDisj := by
  obtain ⟨out, hout, heq⟩ := findMatchingBlocks_run hmin
  have hd := fmbLoop_disjoint hmin (fmbFuel a) _ [] out (List.pairwise_singleton _ _)
    List.Pairwise.nil (by intro r hr x hx; simp at hx) hout
  rw [heq]
  exact hd.perm (List.perm_insertionSort _ _).symm (fun h => blkDisj_symm h)

lemma findMatchingBlocks_sorted (a b : List String) (minW : Nat) :
    (findMatchingBlocks a b minW).Pairwise (fun x y => x.aStart ≤ y.aStart) := by
  unfold findMatchingBlocks
  exact List.sorted_insertionSort _ _

/-- C1: every returned block is at least `minMatchWords` long, lies inside
both sequences, matches token for token on both sides, and the returned
list is sorted by ascending `aStart`. -/
theorem claim1_blocks_match_and_sorted (a b : List String) (minW : Nat) (hmin : 1 ≤ minW) :
    (∀ blk ∈ findMatchingBlocks a b minW,
      minW ≤ blk.size ∧ blk.aStart + blk.size ≤ a.length ∧
      blk.bStart + blk.size ≤ b.length ∧
      ∀ t, t < blk.size → a[blk.aStart + t]? = b[blk.bStart + t]?) ∧
    (findMatchingBlocks a b minW).Pairwise (fun x y => x.aStart ≤ y.aStart) := by
  constructor
  · intro blk hblk
    exact findMatchingBlocks_sound hmin blk hblk
  · exact findMatchingBlocks_sorted a b minW

theorem claim1_witness :
    (3 ≤ (⟨0, 0, 3⟩ : MatchBlock).size ∧
      (⟨0, 0, 3⟩ : MatchBlock).aStart + (⟨0, 0, 3⟩ : MatchBlock).size ≤
        (["u", "v", "w"] : List String).length ∧
      (⟨0, 0, 3⟩ : MatchBlock).bStart + (⟨0, 0, 3⟩ : MatchBlock).size ≤
        (["u", "v", "w"] : List String).length ∧
      ∀ t, t < (⟨0, 0, 3⟩ : MatchBlock).size →
        (["u", "v", "w"] : List String)[(⟨0, 0, 3⟩ : MatchBlock).aStart + t]? =
          (["u", "v", "w"] : List String)[(⟨0, 0, 3⟩ : MatchBlock).bStart + t]?) ∧
    (findMatchingBlocks ["u", "v", "w"] ["u", "v", "w"] 3).Pairwise
      (fun x y => x.aStart ≤ y.aStart) :=
  ⟨(claim1_blocks_match_and_sorted ["u", "v", "w"] ["u", "v", "w"] 3 (by decide)).1
      ⟨0, 0, 3⟩ (by decide),
    (claim1_blocks_match_and_sorted ["u", "v", "w"] ["u", "v", "w"] 3 (by decide)).2⟩

/-- C2: any two distinct returned blocks occupy disjoint token-index
intervals in sequence A and in sequence B. -/
theorem claim2_blocks_disjoint (a b : List String) (minW : Nat) (hmin : 1 ≤ minW) :
    (findMatchingBlocks a b minW).Pairwise (fun x y =>
      (x.aStart + x.size ≤ y.aStart ∨ y.aStart + y.size ≤ x.aStart) ∧
      (x.bStart + x.size ≤ y.bStart ∨ y.bStart + y.size ≤ x.bStart)) :=
  (findMatchingBlocks_disjoint hmin).imp (fun h => h)

theorem claim2_witness :
    (findMatchingBlocks ["p", "q", "r", "x", "s", "t", "u"]
        ["p", "q", "r", "y", "s", "t", "u"] 3).Pairwise (fun x y =>
      (x.aStart + x.size ≤ y.aStart ∨ y.aStart + y.size ≤ x.aStart) ∧
      (x.bStart + x.size ≤ y.bStart ∨ y.bStart + y.size ≤ x.bStart)) :=
  claim2_blocks_disjoint _ _ 3 (by decide)

/-- C5: for a positive minimum match length the work-list loop of
`findMatchingBlocks` empties after finitely many iterations — concretely,
fuel `2 * a.length + 2` always suffices. -/
theorem claim5_terminates (a b : List String) (minW : Nat) (hmin : 1 ≤ minW) :
    (fmbLoop a b minW (fmbFuel a) [⟨0, a.length, 0, b.length⟩] []).isSome := by
  apply fmbLoop_total hmin
  simp only [pendingWeight, List.map_cons, List.map_nil, List.sum_cons, List.sum_nil,
    List.length_singleton, fmbFuel]
  omega

theorem claim5_witness :
    (fmbLoop ["x"] ["y"] 1 (fmbFuel ["x"])
      [⟨0, (["x"] : List String).length, 0, (["y"] : List String).length⟩] []).isSome :=
  claim5_terminates ["x"] ["y"] 1 (by decide)

/-- C6 counterexample: `findMatchingBlocks` neither clamps
`minMatchWords = 0` to 1 nor rejects it: on empty inputs the loop exhausts
a fuel on which `minMatchWords = 1` finishes, so the two calls do not
agree and no value is returned at all for `minMatchWords = 0`. -/
theorem claim6_counterexample :
    fmbLoop [] [] 0 6 [⟨0, 0, 0, 0⟩] [] = none ∧
    fmbLoop [] [] 1 6 [⟨0, 0, 0, 0⟩] [] = some [] := by
  exact ⟨rfl, rfl⟩

/-- C6 amended: the source does not treat `minMatchWords ≤ 0` as invalid;
with `minMatchWords = 0` the loop re-pushes the empty region forever and
terminates for no fuel at all (shown on empty inputs), while for every
`minMatchWords ≥ 1` no returned block has size 0. -/
theorem claim6_amended :
    (∀ (fuel : Nat) (blocks : List MatchBlock),
      fmbLoop [] [] 0 fuel [⟨0, 0, 0, 0⟩] blocks = none) ∧
    (∀ (a b : List String) (minW : Nat), 1 ≤ minW →
      ∀ blk ∈ findMatchingBlocks a b minW, blk.size ≠ 0) := by
  constructor
  · intro fuel blocks
    apply fmbLoop_zero_diverges fuel _ blocks (by simp)
    intro r hr
    simp only [List.mem_singleton] at hr
    exact hr
  · intro a b minW hmin blk hblk
    have h := findMatchingBlocks_sound hmin blk hblk
    omega

theorem claim6_amended_witness :
    fmbLoop [] [] 0 6 [⟨0, 0, 0, 0⟩] [⟨0, 0, 0⟩] = none ∧
    (⟨0, 0, 3⟩ : MatchBlock).size ≠ 0 :=
  ⟨claim6_amended.1 6 [⟨0, 0, 0⟩],
    claim6_amended.2 ["u", "v", "w"] ["u", "v", "w"] 3 (by decide) ⟨0, 0, 3⟩ (by decide)⟩

/-- C3: `mergeRanges` returns a list sorted by `start` whose adjacent spans
leave a strict gap, maps the empty list to the empty list, coalesces an
overlapping-or-touching next span by taking the maximum of the two ends,
and consequently both range sets produced by the end-to-end overlap
computation are sorted and pairwise disjoint with strict gaps. -/
theorem claim3_mergeRanges_invariants (ranges : List TextSpan)
    (h : ∀ r ∈ ranges, r.start ≤ r.stop) :
    ((mergeRanges ranges).Pairwise (fun x y => x.start ≤ y.start) ∧
      (mergeRanges ranges).Chain' (fun x y => x.stop < y.start)) ∧
    mergeRanges ([] : List TextSpan) = [] ∧
    (∀ (cur x : TextSpan) (xs : List TextSpan), x.start ≤ cur.stop →
      mergeLoop cur (x :: xs) = mergeLoop ⟨cur.start, max cur.stop x.stop⟩ xs) ∧
    (∀ (humanText aiText : List Char) (hr ar : List TextSpan),
      overlapRanges humanText aiText = some (hr, ar) →
      (hr.Pairwise (fun x y => x.start ≤ y.start) ∧
        hr.Chain' (fun x y => x.stop < y.start)) ∧
      (ar.Pairwise (fun x y => x.start ≤ y.start) ∧
        ar.Chain' (fun x y => x.stop < y.start))) := by
  refine ⟨⟨mergeRanges_sorted _, mergeRanges_chain _⟩, rfl, ?_, ?_⟩
  · intro cur x xs hx
    simp only [mergeLoop]
    rw [if_pos hx]
  · intro humanText aiText hr ar heq
    simp only [overlapRanges] at heq
    cases h1 : blocksToCharRanges
        (findMatchingBlocks ((tokenize humanText 0).map TokenSpan.token)
          ((tokenize aiText 0).map TokenSpan.token) 3)
        (tokenize humanText 0) Side.a with
    | none => rw [h1] at heq; simp at heq
    | some hval =>
      cases h2 : blocksToCharRanges
          (findMatchingBlocks ((tokenize humanText 0).map TokenSpan.token)
            ((tokenize aiText 0).map TokenSpan.token) 3)
          (tokenize aiText 0) Side.b with
      | none => rw [h1, h2] at heq; simp at heq
      | some aval =>
        rw [h1, h2] at heq
        simp only [Option.some.injEq, Prod.mk.injEq] at heq
        obtain ⟨rfl, rfl⟩ := heq
        obtain ⟨raw1, hraw1⟩ := blocksToCharRanges_some h1
        obtain ⟨raw2, hraw2⟩ := blocksToCharRanges_some h2
        rw [hraw1, hraw2]
        exact ⟨⟨mergeRanges_sorted _, mergeRanges_chain _⟩,
          ⟨mergeRanges_sorted _, mergeRanges_chain _⟩⟩

theorem claim3_witness :
    ((mergeRanges [⟨0, 10⟩, ⟨8, 15⟩]).Pairwise (fun x y => x.start ≤ y.start) ∧
      (mergeRanges [⟨0, 10⟩, ⟨8, 15⟩]).Chain' (fun x y => x.stop < y.start)) ∧
    mergeRanges ([] : List TextSpan) = [] :=
  ⟨(claim3_mergeRanges_invariants [⟨0, 10⟩, ⟨8, 15⟩] (by decide)).1,
    (claim3_mergeRanges_invariants [⟨0, 10⟩, ⟨8, 15⟩] (by decide)).2.1⟩

/-- C4: `findLongestCommonBlock` returns a common contiguous block of
maximal size within the region, and among equal-size maximal blocks the
returned one has the row-major-first `(i, j)` end position of the DP
sweep (lowest end row, then lowest end column). -/
theorem claim4_flcb_maximal_first (a b : List String) (aLo aHi bLo bHi : Nat) :
    (1 ≤ (findLongestCommonBlock a b aLo aHi bLo bHi).size →
      blockInRegion (findLongestCommonBlock a b aLo aHi bLo bHi) aLo aHi bLo bHi ∧
      blockMatches a b (findLongestCommonBlock a b aLo aHi bLo bHi)) ∧
    (∀ c : MatchBlock, blockInRegion c aLo aHi bLo bHi → blockMatches a b c →
      c.size ≤ (findLongestCommonBlock a b aLo aHi bLo bHi).size) ∧
    (∀ c : MatchBlock, blockInRegion c aLo aHi bLo bHi → blockMatches a b c →
      1 ≤ c.size → c.size = (findLongestCommonBlock a b aLo aHi bLo bHi).size →
      (findLongestCommonBlock a b aLo aHi bLo bHi).aStart +
          (findLongestCommonBlock a b aLo aHi bLo bHi).size < c.aStart + c.size ∨
      ((findLongestCommonBlock a b aLo aHi bLo bHi).aStart +
          (findLongestCommonBlock a b aLo aHi bLo bHi).size = c.aStart + c.size ∧
        (findLongestCommonBlock a b aLo aHi bLo bHi).bStart +
          (findLongestCommonBlock a b aLo aHi bLo bHi).size ≤ c.bStart + c.size)) :=
  ⟨fun h => flcb_sound h,
    fun c hin hmt => flcb_max c hin hmt,
    fun c hin hmt hpos hsz => flcb_first c hin hmt hsz hpos⟩

theorem claim4_witness :
    (blockInRegion (findLongestCommonBlock ["x", "y"] ["y", "x"] 0 2 0 2) 0 2 0 2 ∧
      blockMatches ["x", "y"] ["y", "x"] (findLongestCommonBlock ["x", "y"] ["y", "x"] 0 2 0 2)) ∧
    (⟨1, 0, 1⟩ : MatchBlock).size ≤ (findLongestCommonBlock ["x", "y"] ["y", "x"] 0 2 0 2).size ∧
    ((findLongestCommonBlock ["x", "y"] ["y", "x"] 0 2 0 2).aStart +
        (findLongestCommonBlock ["x", "y"] ["y", "x"] 0 2 0 2).size <
        (⟨1, 0, 1⟩ : MatchBlock).aStart + (⟨1, 0, 1⟩ : MatchBlock).size ∨
      ((findLongestCommonBlock ["x", "y"] ["y", "x"] 0 2 0 2).aStart +
          (findLongestCommonBlock ["x", "y"] ["y", "x"] 0 2 0 2).size =
          (⟨1, 0, 1⟩ : MatchBlock).aStart + (⟨1, 0, 1⟩ : MatchBlock).size ∧
        (findLongestCommonBlock ["x", "y"] ["y", "x"] 0 2 0 2).bStart +
          (findLongestCommonBlock ["x", "y"] ["y", "x"] 0 2 0 2).size ≤
          (⟨1, 0, 1⟩ : MatchBlock).bStart + (⟨1, 0, 1⟩ : MatchBlock).size)) :=
  ⟨(claim4_flcb_maximal_first ["x", "y"] ["y", "x"] 0 2 0 2).1 (by decide),
    (claim4_flcb_maximal_first ["x", "y"] ["y", "x"] 0 2 0 2).2.1 ⟨1, 0, 1⟩
      (by decide) (by decide),
    (claim4_flcb_maximal_first ["x", "y"] ["y", "x"] 0 2 0 2).2.2 ⟨1, 0, 1⟩
      (by decide) (by decide) (by decide) (by decide)⟩

/-- C7: for a sorted, pairwise-disjoint range set contained in the text,
concatenating the text of all rendered segments reconstructs the text
exactly; the empty range set renders the whole text as one plain segment. -/
theorem claim7_roundtrip (text : List Char) (ranges : List TextSpan)
    (hchain : ranges.Chain' (fun r s => r.stop ≤ s.start))
    (hin : ∀ r ∈ ranges, r.start ≤ r.stop ∧ r.stop ≤ text.length) :
    segsText (highlightByRanges text ranges) = text ∧
    highlightByRanges text [] = [Segment.plain text] := by
  constructor
  · unfold highlightByRanges
    by_cases he : ranges.isEmpty
    · rw [if_pos he]
      simp [segsText, segText]
    · rw [if_neg he]
      have hj := hlLoop_join text ranges 0 (Nat.zero_le _) hchain hin
        (fun r _ => Nat.zero_le _)
      rw [hj, List.drop_zero]
  · rfl

theorem claim7_witness :
    segsText (highlightByRanges ['a', 'b', 'c'] [⟨1, 2⟩]) = ['a', 'b', 'c'] ∧
    highlightByRanges ['a', 'b', 'c'] [] = [Segment.plain ['a', 'b', 'c']] :=
  claim7_roundtrip ['a', 'b', 'c'] [⟨1, 2⟩] (List.chain'_singleton _) (by decide)

/-- C8 counterexample: a size-0 block whose token index 0 is inside the
span list has computed end index `-1`, which is out of bounds; the source
does not skip it silently but dereferences `spans[-1]` and throws
(modelled as `none`). -/
theorem claim8_counterexample :
    blocksToCharRanges [⟨0, 0, 0⟩] [⟨"a", 0, 1⟩] Side.a = none := rfl

/-- C8 amended: for blocks of size at least 1 the description holds: each
in-bounds block contributes the span from its first token's `start` to its
last token's `end`, each out-of-bounds block is silently skipped, no error
occurs, and the function returns these spans merged. -/
theorem claim8_amended (blocks : List MatchBlock) (spans : List TokenSpan) (side : Side)
    (h : ∀ blk ∈ blocks, 1 ≤ blk.size) :
    b2crLoop spans side blocks = some (blocks.filterMap (charRangeOf spans side)) ∧
    blocksToCharRanges blocks spans side =
      some (mergeRanges (blocks.filterMap (charRangeOf spans side))) :=
  ⟨b2crLoop_sizes blocks spans side h, blocksToCharRanges_sizes blocks spans side h⟩

theorem claim8_witness :
    b2crLoop [⟨"a", 0, 1⟩] Side.a [⟨0, 0, 1⟩] =
      some (([⟨0, 0, 1⟩] : List MatchBlock).filterMap (charRangeOf [⟨"a", 0, 1⟩] Side.a)) ∧
    blocksToCharRanges [⟨0, 0, 1⟩] [⟨"a", 0, 1⟩] Side.a =
      some (mergeRanges (([⟨0, 0, 1⟩] : List MatchBlock).filterMap
        (charRangeOf [⟨"a", 0, 1⟩] Side.a))) :=
  claim8_amended [⟨0, 0, 1⟩] [⟨"a", 0, 1⟩] Side.a (by decide)

/-- C9 counterexample: `mergeRanges` is not free of effects on its input:
with input objects `{0,10}` and `{8,15}` the first input object is mutated
in place to `{0,15}` through the `merged[0]` alias. -/
theorem claim9_counterexample :
    (mergeRangesHeap [⟨0, 10⟩, ⟨8, 15⟩]).2 ≠ [⟨0, 10⟩, ⟨8, 15⟩] := by decide

/-- C9 amended: the only input span `mergeRanges` can mutate is the one
placed first by the sort (the object aliased by `merged[0]`); every other
input span is left unchanged. -/
theorem claim9_amended (heap : List TextSpan) (i : Nat)
    (h : i ≠ (sortIdxByStart heap).headD 0) :
    ((mergeRangesHeap heap).2)[i]? = heap[i]? :=
  mergeRangesHeap_snd h

theorem claim9_witness :
    ((mergeRangesHeap [⟨0, 10⟩, ⟨8, 15⟩]).2)[1]? = ([⟨0, 10⟩, ⟨8, 15⟩] : List TextSpan)[1]? :=
  claim9_amended [⟨0, 10⟩, ⟨8, 15⟩] 1 (by decide)

/-- C10: `mergeRanges` is idempotent on spans with `start ≤ end`, and any
list already sorted by `start` with strict gaps between adjacent spans is
returned unchanged as a value. -/
theorem claim10_idempotent :
    (∀ rs : List TextSpan, (∀ r ∈ rs, r.start ≤ r.stop) →
      mergeRanges (mergeRanges rs) = mergeRanges rs) ∧
    (∀ ys : List TextSpan, ys.Pairwise (fun x y => x.start ≤ y.start) →
      ys.Chain' (fun x y => x.stop < y.start) → mergeRanges ys = ys) :=
  ⟨fun rs _ => mergeRanges_idem rs, fun ys hs hc => mergeRanges_fixed ys hs hc⟩

theorem claim10_witness :
    mergeRanges (mergeRanges [⟨0, 10⟩, ⟨8, 15⟩]) = mergeRanges [⟨0, 10⟩, ⟨8, 15⟩] ∧
    mergeRanges [⟨0, 5⟩, ⟨7, 9⟩] = [⟨0, 5⟩, ⟨7, 9⟩] :=
  ⟨claim10_idempotent.1 [⟨0, 10⟩, ⟨8, 15⟩] (by decide),
    claim10_idempotent.2 [⟨0, 5⟩, ⟨7, 9⟩] (by decide)
      (by rw [List.chain'_cons]; exact ⟨by decide, List.chain'_singleton _⟩)⟩

end AiWriting
